import Mathlib

/-!
Verification of the UW course-catalog extraction pipeline (`uwcourses.py`).

Strings are modelled as `List Char` (Python `str` over ASCII input).  Each
Python function of the parsing core is shallowly embedded as an executable
Lean function carrying the same name.  Python regular-expression matching
(`re.match`, `re.search`, `re.findall`, `re.split`) is embedded for the
concrete, fixed patterns appearing in the source, with Python's
leftmost/greedy/backtracking semantics made explicit: each greedy quantifier
tries the longest extent first (`tryDesc`, `tryDesc0`) and the overall match
is the first full success of that depth-first search.  Functions that can
raise a Python exception (`IndexError` from `parts[1]`, `TypeError` from
iterating `None`, unpacking an empty fragment list) return `Option` results,
`none` marking the raised exception.
-/

namespace UW

/-- Python string. -/
abbrev Str := List Char

/-- ASCII decimal digit, the `\d` class of the source's patterns (source text
is ASCII). -/
def isDigitC (c : Char) : Bool := 48 ≤ c.toNat && c.toNat ≤ 57

/-- Character class `[A-Z& ]` used by the title pattern and by the
prerequisite course-code pattern. -/
def isDeptChar (c : Char) : Bool :=
  (65 ≤ c.toNat && c.toNat ≤ 90) || c.toNat == 38 || c.toNat == 32

/-- The regex `.` metacharacter: any character except a newline
(`re.DOTALL` is not set anywhere in the source). -/
def isDot (c : Char) : Bool := c.toNat != 10

/-- Python whitespace characters stripped by `str.strip()` (ASCII range). -/
def isPyWS (c : Char) : Bool :=
  c.toNat == 32 || c.toNat == 9 || c.toNat == 10 || c.toNat == 13 ||
  c.toNat == 11 || c.toNat == 12

/-- Numeric value of a decimal digit string, Python `int(...)` on the
digit-only group captured by `(\d+)`. -/
def digitsToNat (s : Str) : Nat :=
  s.foldl (fun a c => 10 * a + (c.toNat - 48)) 0

/-- Python `str.strip()`: remove leading and trailing whitespace. -/
def pystrip (s : Str) : Str :=
  ((s.dropWhile isPyWS).reverse.dropWhile isPyWS).reverse

/-- Greedy backtracking loop of a `+`-quantified group: try extents
`n, n-1, ..., 1` and return the first success, exactly the order in which
the Python regex engine explores the extents of a greedy `+`. -/
def tryDesc (f : Nat → Option α) : Nat → Option α
  | 0 => none
  | Nat.succ n =>
    match f (n + 1) with
    | some v => some v
    | none => tryDesc f n

/-- Greedy backtracking loop of a `*`-quantified group: try extents
`n, n-1, ..., 0`. -/
def tryDesc0 (f : Nat → Option α) : Nat → Option α
  | 0 => f 0
  | Nat.succ n =>
    match f (n + 1) with
    | some v => some v
    | none => tryDesc0 f n

/-- Split a string at the first occurrence of `pat`, returning the part
before and the part after the occurrence, or `none` when `pat` does not
occur.  This is the primitive behind Python's `in`, `str.split` and slicing
at a marker. -/
def splitOnceAt (pat : Str) : Str → Option (Str × Str)
  | [] => if pat.isPrefixOf ([] : Str) then some ([], []) else none
  | c :: rest =>
    if pat.isPrefixOf (c :: rest) then some ([], (c :: rest).drop pat.length)
    else
      match splitOnceAt pat rest with
      | some (pre, post) => some (c :: pre, post)
      | none => none

/-- Python `pat in s` (substring containment). -/
def hasSubstr (pat s : Str) : Bool := (splitOnceAt pat s).isSome

/-- Fuelled worker for Python `str.split(pat)`. -/
def pysplitF (pat : Str) : Nat → Str → List Str
  | 0, s => [s]
  | Nat.succ fuel, s =>
    match splitOnceAt pat s with
    | none => [s]
    | some (pre, post) => pre :: pysplitF pat fuel post

/-- Python `s.split(pat)` for a non-empty separator `pat`: the pieces of `s`
between consecutive non-overlapping occurrences of `pat`. -/
def pysplit (pat s : Str) : List Str := pysplitF pat (s.length + 1) s

/-- Prefix of `s` before the first occurrence of `pat` (all of `s` when `pat`
does not occur): Python `s.split(pat)[0]`. -/
def truncAt (pat s : Str) : Str :=
  match splitOnceAt pat s with
  | some p => p.1
  | none => s

/-- The segment of `s` strictly between the first occurrence of `pat` and
the following occurrence of `pat` if any (to the end otherwise); `none` when
`pat` does not occur: Python `s.split(pat)[1]` including its `IndexError`
behaviour. -/
def segmentAfterFirst (pat s : Str) : Option Str :=
  match splitOnceAt pat s with
  | some p => some (truncAt pat p.2)
  | none => none

/-- Python `re.split(',|/', s)`: split at every comma or slash. -/
def splitCS : Str → List Str
  | [] => [[]]
  | c :: rest =>
    match splitCS rest with
    | h :: t => if c.toNat == 44 || c.toNat == 47 then [] :: h :: t else (c :: h) :: t
    | [] => [[]]

/-- Three-way code-point comparison of strings, the comparison underlying
Python's `<`/`sorted` on `str`. -/
def lexCmp : Str → Str → Ordering
  | [], [] => Ordering.eq
  | [], _ :: _ => Ordering.lt
  | _ :: _, [] => Ordering.gt
  | a :: as, b :: bs =>
    if a.toNat < b.toNat then Ordering.lt
    else if b.toNat < a.toNat then Ordering.gt
    else lexCmp as bs

/-- Python `≤` on strings (code-point lexicographic). -/
def strLe (a b : Str) : Prop := lexCmp a b ≠ Ordering.gt

instance : DecidableRel strLe := fun a b => by unfold strLe; infer_instance

/-- Python `sorted` on a list of strings: a stable sort by `strLe`
(extensionally, insertion sort). -/
def pysorted (l : List Str) : List Str := List.insertionSort strLe l

/-- Python `sorted(set(l))`: the distinct elements of `l` in ascending
string order. -/
def pysortedset (l : List Str) : List Str := pysorted l.dedup

/-- Greedy match of the course-code pattern `[A-Z& ]+ \d+` at the head of
`s`: longest class run first, backtracking until the literal space and a
non-empty digit run fit; returns the matched text and the rest of `s`. -/
def matchPrereqAtF (s : Str) (k : Nat) : Option (Str × Str) :=
  if (s.take k).all isDeptChar then
    match s.drop k with
    | c :: rest =>
      if c = ' ' then
        let d := rest.takeWhile isDigitC
        if d.isEmpty then none
        else some (s.take k ++ ' ' :: d, rest.drop d.length)
      else none
    | [] => none
  else none

/-- The backtracking loop of `matchPrereqAtF`, longest class run first. -/
def matchPrereqAt (s : Str) : Option (Str × Str) :=
  tryDesc (matchPrereqAtF s) s.length

/-- Fuelled scan of `re.findall(r'([A-Z& ]+ \d+)', s)`: leftmost
non-overlapping matches, each found greedily, scanning resuming after each
match. -/
def findallF : Nat → Str → List Str
  | 0, _ => []
  | Nat.succ fuel, s =>
    match s with
    | [] => []
    | _ :: rest =>
      match matchPrereqAt s with
      | some (m, r) => m :: findallF fuel r
      | none => findallF fuel rest

/-- Python `re.findall(r'([A-Z& ]+ \d+)', s)`. -/
def findallPrereq (s : Str) : List Str := findallF s.length s

/-- Marker string `"Prerequisite:"`. -/
def pmark : Str := "Prerequisite:".toList

/-- Marker string `"Offered:"`. -/
def omark : Str := "Offered:".toList

/-- Marker string `"Offered: "` (trailing space), the separator actually
passed to `split` by `parse_offered`. -/
def omarkSp : Str := "Offered: ".toList

/-- `parse_credits` (src/uwcourses.py:40-50): an anchored `re.search` of the
group `(\d+)` followed by a negative lookahead refusing a hyphen or slash;
the greedy digit run backtracks against the lookahead, and the value of the
matched group is returned, `none` when no extent matches. -/
def parse_creditsF (s : Str) (k : Nat) : Option Nat :=
  if (s.take k).all isDigitC then
    match s.get? k with
    | some c => if c = '-' ∨ c = '/' then none else some (digitsToNat (s.take k))
    | none => some (digitsToNat (s.take k))
  else none

/-- The backtracking loop of `parse_creditsF`, longest digit run first. -/
def parse_credits (s : Str) : Option Nat :=
  tryDesc (parse_creditsF s) s.length

/-- `parse_prerequisites` (src/uwcourses.py:53-67).  `none` models the
`IndexError` raised by `parts[1]` when `'Prerequisite:'` occurs in the text
but not in the part of it before the first `'Offered:'`. -/
def parse_prerequisites (course_description : Str) : Option (List Str) :=
  if hasSubstr pmark course_description then
    match pysplit pmark ((pysplit omark course_description).headD []) with
    | _ :: p1 :: _ => some (pysortedset ((findallPrereq p1).map pystrip))
    | _ => none
  else some []

/-- The if/elif chain of `parse_offered` over the post-marker text
(src/uwcourses.py:83-114), literal codes tested top to bottom. -/
def offeredOf (p1 : Str) : List Str :=
  if hasSubstr "AWSpS.".toList p1 then ["A".toList, "W".toList, "Sp".toList, "S".toList]
  else if hasSubstr "AWSp.".toList p1 then ["A".toList, "W".toList, "Sp".toList]
  else if hasSubstr "AWS.".toList p1 then ["A".toList, "W".toList, "S".toList]
  else if hasSubstr "AW.".toList p1 then ["A".toList, "W".toList]
  else if hasSubstr "ASpS.".toList p1 then ["A".toList, "Sp".toList, "S".toList]
  else if hasSubstr "ASp.".toList p1 then ["A".toList, "Sp".toList]
  else if hasSubstr "AS.".toList p1 then ["A".toList, "S".toList]
  else if hasSubstr "A.".toList p1 then ["A".toList]
  else if hasSubstr "WSpS.".toList p1 then ["W".toList, "Sp".toList, "S".toList]
  else if hasSubstr "WSp.".toList p1 then ["W".toList, "Sp".toList]
  else if hasSubstr "WS.".toList p1 then ["W".toList, "S".toList]
  else if hasSubstr "W.".toList p1 then ["W".toList]
  else if hasSubstr "SpS.".toList p1 then ["Sp".toList, "S".toList]
  else if hasSubstr "Sp.".toList p1 then ["Sp".toList]
  else if hasSubstr "S.".toList p1 then ["S".toList]
  else []

/-- `parse_offered` (src/uwcourses.py:70-114): containment test uses
`'Offered:'` while the split separator is `'Offered: '` with a trailing
space; `none` models the `IndexError` of `parts[1]` when the latter does not
occur. -/
def parse_offered (course_description : Str) : Option (List Str) :=
  if hasSubstr omark course_description then
    match pysplit omarkSp course_description with
    | _ :: p1 :: _ => some (offeredOf p1)
    | _ => none
  else some []

/-- Tail `(.*)$` of the title pattern: the greedy dot run, with `$` matching
at the end of the string or just before a trailing newline. -/
def matchEnd (v : Str) : Option Str :=
  match v.drop (v.takeWhile isDot).length with
  | [] => some (v.takeWhile isDot)
  | c :: rest => if c = '\n' ∧ rest = [] then some (v.takeWhile isDot) else none

/-- Segment `.*\)(.*)$` of the title pattern matched at `r`, returning the
final group; the greedy `.*` makes `\)` match the last viable closing
parenthesis. -/
def matchCloseF (r : Str) (k : Nat) : Option Str :=
  if (r.take k).all isDot then
    match r.drop k with
    | c :: v => if c = ')' then matchEnd v else none
    | [] => none
  else none

/-- The backtracking loop of `matchCloseF`, longest dot run first. -/
def matchClose (r : Str) : Option Str :=
  tryDesc0 (matchCloseF r) r.length

/-- Segment `(.+).*\)(.*)$` of the title pattern matched at `u` with the
dot run of the credit group fixed at `k`, returning the credit group and the
final group. -/
def matchCreditF (u : Str) (k : Nat) : Option (Str × Str) :=
  if (u.take k).all isDot then
    (matchClose (u.drop k)).map (fun g5 => (u.take k, g5))
  else none

/-- The backtracking loop of `matchCreditF`, longest credit group first. -/
def matchCredit (u : Str) : Option (Str × Str) :=
  tryDesc (matchCreditF u) u.length

/-- Segment `(.+) \((.+).*\)(.*)$` of the title pattern matched at `t` with
the title group fixed at `k`, returning the title, credit and final groups. -/
def matchTitleTailF (t : Str) (k : Nat) : Option (Str × Str × Str) :=
  if (t.take k).all isDot then
    match t.drop k with
    | c1 :: c2 :: u =>
      if c1 = ' ' ∧ c2 = '(' then
        (matchCredit u).map (fun p => (t.take k, p.1, p.2))
      else none
    | _ => none
  else none

/-- The backtracking loop of `matchTitleTailF`, longest title group first. -/
def matchTitleTail (t : Str) : Option (Str × Str × Str) :=
  tryDesc (matchTitleTailF t) t.length

/-- Segment `(\d+) (.+) \((.+).*\)(.*)$` of the title pattern matched at
`s` with the code group fixed at `k`, returning the code group and the later
groups. -/
def matchCodeF (s : Str) (k : Nat) : Option (Str × Str × Str × Str) :=
  if (s.take k).all isDigitC then
    match s.drop k with
    | c :: t => if c = ' ' then (matchTitleTail t).map (fun p => (s.take k, p)) else none
    | [] => none
  else none

/-- The backtracking loop of `matchCodeF`, longest digit run first. -/
def matchCode (s : Str) : Option (Str × Str × Str × Str) :=
  tryDesc (matchCodeF s) s.length

/-- The title-line match `p.match(s)` of `parse_course`
(src/uwcourses.py:129-130), pattern `^([A-Z& ]+) (\d+) (.+) \((.+).*\)(.*)$`,
with the department group fixed at `k`. -/
def matchTitleF (s : Str) (k : Nat) : Option (Str × Str × Str × Str × Str) :=
  if (s.take k).all isDeptChar then
    match s.drop k with
    | c :: r => if c = ' ' then (matchCode r).map (fun p => (s.take k, p)) else none
    | [] => none
  else none

/-- The full title-line match with Python's greedy backtracking semantics,
returning the five groups: department, code, title, credit expression and
trailing knowledge-area text. -/
def matchTitle (s : Str) : Option (Str × Str × Str × Str × Str) :=
  tryDesc (matchTitleF s) s.length

/-- The `Course` namedtuple (src/uwcourses.py:22-25). -/
structure Course where
  campus : Str
  department : Str
  code : Str
  name : Str
  credits : Option Nat
  knowledge_areas : List Str
  prerequisites : List Str
  offered : List Str
deriving DecidableEq

/-- `parse_course` (src/uwcourses.py:117-144).  A course block is the
ordered list of text fragments of the DOM node (`itertext`); the external
title-casing collaborator is the parameter `tc`.  The outer `none` models a
raised exception (unpacking an empty fragment list, or an `IndexError`
escaping `parse_prerequisites`/`parse_offered`); `some none` models the
`return None` on a title-pattern mismatch. -/
def parse_course (tc : Str → Str) (fragments : List Str) (campus : Str) :
    Option (Option Course) :=
  match fragments with
  | [] => none
  | s :: remaining =>
    match matchTitle s with
    | none => some none
    | some g =>
      match parse_prerequisites
          (List.flatten (remaining.filter (fun j => hasSubstr pmark j))) with
      | none => none
      | some pr =>
        match parse_offered
            (List.flatten (remaining.filter (fun j => hasSubstr omark j))) with
        | none => none
        | some off =>
          some (some
            { campus := campus
              department := g.1
              code := g.2.1
              name := tc g.2.2.1
              credits := parse_credits g.2.2.2.1
              knowledge_areas := pysorted ((splitCS g.2.2.2.2).map pystrip)
              prerequisites := pr
              offered := off })

/-- `course_key` (src/uwcourses.py:28-37). -/
def course_key (course : Course) : Str × Str × Str :=
  (course.campus, course.department, course.code)

/-- Three-way comparison of identity keys: componentwise string comparison,
campus first — Python's tuple comparison on `course_key` values. -/
def keyCmp (k1 k2 : Str × Str × Str) : Ordering :=
  match lexCmp k1.1 k2.1 with
  | Ordering.eq =>
    match lexCmp k1.2.1 k2.2.1 with
    | Ordering.eq => lexCmp k1.2.2 k2.2.2
    | o => o
  | o => o

/-- Ordering of courses by identity key used by `sorted(courses, key=course_key)`. -/
def courseLe (c d : Course) : Prop := keyCmp (course_key c) (course_key d) ≠ Ordering.gt

instance : DecidableRel courseLe := fun a b => by unfold courseLe; infer_instance

/-- Record ordering applied by `export_courses` (src/uwcourses.py:209-216)
before emitting rows: a stable sort of the collected courses by identity
key.  CSV serialization itself is mechanical I/O and out of scope; the
function returns the sequence of records in emission order. -/
def export_courses (courses : List Course) : List Course :=
  List.insertionSort courseLe courses

/-- `get_courses` (src/uwcourses.py:174-206).  The external HTTP and HTML
collaborators are summed up by `fetch`, which returns the ordered course
blocks of a department page or `none` for a non-200 response.  Result:
`some none` models the bare `return` (Python `None`) taken on a failed
fetch; the outer `none` models an exception raised while parsing a block;
`some (some l)` is the parsed course list, unparseable blocks skipped. -/
def get_courses (fetch : Str → Option (List (List Str))) (tc : Str → Str)
    (campus dept_link : Str) : Option (Option (List Course)) :=
  match fetch dept_link with
  | none => some none
  | some items =>
    match items.mapM (fun i => parse_course tc i campus) with
    | none => none
    | some results => some (some (results.reduceOption))

/-- `extract_courses` (src/uwcourses.py:280-299).  `index` models
`get_department_links` (`none` = the raised index-fetch exception); an empty
`department_links` list models the absent command-line override.  The result
is `none` whenever any exception aborts the run — including the `TypeError`
raised by `itertools.chain.from_iterable` when some `get_courses` call
returned `None`. -/
def extract_courses (index : Str → Option (List Str))
    (fetch : Str → Option (List (List Str))) (tc : Str → Str)
    (campuses : List Str) (department_links : List Str) : Option (List Course) := do
  let lss ← campuses.mapM (fun campus => do
    let depts ← if department_links.isEmpty then index campus else pure department_links
    let rs ← depts.mapM (fun d => get_courses fetch tc campus d)
    let ls ← rs.mapM (fun r => r)
    pure ls.flatten)
  pure lss.flatten

/-- Alphabet of a well-formed trailing knowledge-area expression on a valid
title line (claim C1): uppercase letters, ampersand, comma, slash, space. -/
def isAreaChar (c : Char) : Bool :=
  (65 ≤ c.toNat && c.toNat ≤ 90) || c.toNat == 38 || c.toNat == 44 ||
  c.toNat == 47 || c.toNat == 32

/-- Rule of claim C2 as stated: the value of the full leading digit run when
that run is not immediately followed by a hyphen or slash, absent otherwise. -/
def credits_claim_rule (s : Str) : Option Nat :=
  let run := s.takeWhile isDigitC
  if run.length = 0 then none
  else
    match s.get? run.length with
    | some c => if c = '-' ∨ c = '/' then none else some (digitsToNat run)
    | none => some (digitsToNat run)

/-- Amended rule for `parse_credits`: the greedy run backtracks one digit
against the lookahead, so a multi-digit run followed by a hyphen or slash
still yields the value of the run without its last digit. -/
def credits_rule (s : Str) : Option Nat :=
  let run := s.takeWhile isDigitC
  if run.length = 0 then none
  else
    match s.get? run.length with
    | some c =>
      if c = '-' ∨ c = '/' then
        if 2 ≤ run.length then some (digitsToNat (run.take (run.length - 1)))
        else none
      else some (digitsToNat run)
    | none => some (digitsToNat run)

/-- Rule of claim C3 as stated: course-code matches in the whole portion
following the (first) `'Prerequisite:'` marker of the text truncated at the
first `'Offered:'` marker, trimmed, deduplicated, sorted. -/
def prereq_claim_rule (s : Str) : Option (List Str) :=
  if hasSubstr pmark s then
    match splitOnceAt pmark (truncAt omark s) with
    | some p => some (pysortedset ((findallPrereq p.2).map pystrip))
    | none => none
  else some []

/-- Amended rule for `parse_prerequisites`: the scanned portion stops at the
next `'Prerequisite:'` occurrence (Python `split` piece semantics), and the
function raises (`none`) when the marker occurs only after `'Offered:'`. -/
def prereq_rule (s : Str) : Option (List Str) :=
  if hasSubstr pmark s then
    match segmentAfterFirst pmark (truncAt omark s) with
    | some seg => some (pysortedset ((findallPrereq seg).map pystrip))
    | none => none
  else some []

/-- The fixed 15-row precedence table of the term-schedule decoder, ordered
as in the specification and the source's if/elif chain. -/
def offered_table : List (Str × List Str) :=
  [("AWSpS.".toList, ["A".toList, "W".toList, "Sp".toList, "S".toList]),
   ("AWSp.".toList, ["A".toList, "W".toList, "Sp".toList]),
   ("AWS.".toList, ["A".toList, "W".toList, "S".toList]),
   ("AW.".toList, ["A".toList, "W".toList]),
   ("ASpS.".toList, ["A".toList, "Sp".toList, "S".toList]),
   ("ASp.".toList, ["A".toList, "Sp".toList]),
   ("AS.".toList, ["A".toList, "S".toList]),
   ("A.".toList, ["A".toList]),
   ("WSpS.".toList, ["W".toList, "Sp".toList, "S".toList]),
   ("WSp.".toList, ["W".toList, "Sp".toList]),
   ("WS.".toList, ["W".toList, "S".toList]),
   ("W.".toList, ["W".toList]),
   ("SpS.".toList, ["Sp".toList, "S".toList]),
   ("Sp.".toList, ["Sp".toList]),
   ("S.".toList, ["S".toList])]

/-- Token list of the first table entry whose literal code occurs in `seg`,
empty when none occurs. -/
def tableLookup (seg : Str) : List Str :=
  match offered_table.find? (fun e => hasSubstr e.1 seg) with
  | some e => e.2
  | none => []

/-- Rule of claim C4 as stated: for text containing `'Offered:'`, the table
lookup applied to everything after the first `'Offered:'` marker; empty when
the marker is absent. -/
def offered_claim_rule (s : Str) : Option (List Str) :=
  match splitOnceAt omark s with
  | some p => some (tableLookup p.2)
  | none => some []

/-- Amended rule for `parse_offered`: the scanned portion is the piece
between the first `'Offered: '` (with trailing space) and the next
occurrence of it, and the function raises (`none`) when the text contains
`'Offered:'` but never with a trailing space. -/
def offered_rule (s : Str) : Option (List Str) :=
  if hasSubstr omark s then
    match segmentAfterFirst omarkSp s with
    | some seg => some (tableLookup seg)
    | none => none
  else some []

/-- Department fetch collaborator for the claim C7 scenario: department
link `"a"` answers with a non-200 status (`none`), department link `"b"`
answers with one well-formed course block. -/
def fetchC7 : Str → Option (List (List Str)) :=
  fun d => if d = "b".toList then some [["A 1 T (4) NW".toList]] else none

/-- The course parsed from the single block of department `"b"` in the
claim C7 scenario. -/
def courseC7 : Course :=
  { campus := "Seattle".toList, department := "A".toList, code := "1".toList,
    name := "T".toList, credits := some 4,
    knowledge_areas := ["NW".toList], prerequisites := [], offered := [] }

/-- First of two distinct courses sharing one identity key (claim C9). -/
def courseC9a : Course :=
  { campus := "Seattle".toList, department := "CSE".toList, code := "142".toList,
    name := "Foo".toList, credits := some 4,
    knowledge_areas := [], prerequisites := [], offered := [] }

/-- Second of two distinct courses sharing one identity key (claim C9). -/
def courseC9b : Course :=
  { campus := "Seattle".toList, department := "CSE".toList, code := "142".toList,
    name := "Bar".toList, credits := some 4,
    knowledge_areas := [], prerequisites := [], offered := [] }

/-- A course whose identity key differs from `courseC9a` (claim C9 witness). -/
def courseC9c : Course :=
  { campus := "Seattle".toList, department := "CSE".toList, code := "143".toList,
    name := "Baz".toList, credits := some 5,
    knowledge_areas := [], prerequisites := [], offered := [] }

/-- Body fragments of the claim C10 block: the second fragment contains a
course-code-shaped token but no `'Prerequisite:'` marker. -/
def fragsC10 : List Str := ["Prerequisite: either".toList, "MATH 125.".toList]

/-- The course `parse_course` produces from the claim C10 block. -/
def courseC10 : Course :=
  { campus := "S".toList, department := "A".toList, code := "1".toList,
    name := "T".toList, credits := some 4,
    knowledge_areas := ["NW".toList], prerequisites := [], offered := [] }

/-- Body fragments of the claim C5 witness block. -/
def fragsC5 : List Str := ["A 1 T (4) NW".toList, "Prerequisite: B 2.".toList]

/-- The course `parse_course` produces from the claim C5 witness block. -/
def courseC5 : Course :=
  { campus := "X".toList, department := "A".toList, code := "1".toList,
    name := "T".toList, credits := some 4,
    knowledge_areas := ["NW".toList], prerequisites := ["B 2".toList],
    offered := [] }

/-- The course of the claim C5 counterexample, with its duplicated
knowledge area. -/
def courseC5dup : Course :=
  { campus := "S".toList, department := "A".toList, code := "1".toList,
    name := "T".toList, credits := some 4,
    knowledge_areas := ["C".toList, "VLPA".toList, "VLPA".toList],
    prerequisites := [], offered := [] }

/-! ### Generic lemmas about the backtracking loops and list utilities -/

theorem tryDesc_eq_some {α : Type} {f : Nat → Option α} {k : Nat} {v : α} :
    ∀ {n : Nat}, 1 ≤ k → k ≤ n → f k = some v →
      (∀ j, k < j → j ≤ n → f j = none) → tryDesc f n = some v := by
  intro n
  induction n with
  | zero => intro h1 h2 _ _; omega
  | succ n ih =>
    intro h1 h2 h3 h4
    by_cases hk : k = n + 1
    · subst hk
      unfold tryDesc
      rw [h3]
    · have hnone : f (n + 1) = none := h4 (n + 1) (by omega) (by omega)
      unfold tryDesc
      rw [hnone]
      exact ih h1 (by omega) h3 (fun j hj1 hj2 => h4 j hj1 (by omega))

theorem tryDesc_eq_none {α : Type} {f : Nat → Option α} :
    ∀ {n : Nat}, (∀ j, 1 ≤ j → j ≤ n → f j = none) → tryDesc f n = none := by
  intro n
  induction n with
  | zero => intro _; rfl
  | succ n ih =>
    intro h
    unfold tryDesc
    rw [h (n + 1) (by omega) (by omega)]
    exact ih (fun j hj1 hj2 => h j hj1 (by omega))

theorem tryDesc0_eq_some {α : Type} {f : Nat → Option α} {k : Nat} {v : α} :
    ∀ {n : Nat}, k ≤ n → f k = some v →
      (∀ j, k < j → j ≤ n → f j = none) → tryDesc0 f n = some v := by
  intro n
  induction n with
  | zero =>
    intro h2 h3 _
    have : k = 0 := by omega
    subst this
    exact h3
  | succ n ih =>
    intro h2 h3 h4
    by_cases hk : k = n + 1
    · subst hk
      unfold tryDesc0
      rw [h3]
    · have hnone : f (n + 1) = none := h4 (n + 1) (by omega) (by omega)
      unfold tryDesc0
      rw [hnone]
      exact ih (by omega) h3 (fun j hj1 hj2 => h4 j hj1 (by omega))

theorem tryDesc0_eq_none {α : Type} {f : Nat → Option α} :
    ∀ {n : Nat}, (∀ j, j ≤ n → f j = none) → tryDesc0 f n = none := by
  intro n
  induction n with
  | zero => intro h; exact h 0 (by omega)
  | succ n ih =>
    intro h
    unfold tryDesc0
    rw [h (n + 1) (by omega)]
    exact ih (fun j hj => h j (by omega))

theorem take_append_ge {α : Type} (xs ys : List α) (n : Nat) (h : xs.length ≤ n) :
    (xs ++ ys).take n = xs ++ ys.take (n - xs.length) := by
  obtain ⟨m, rfl⟩ : ∃ m, n = xs.length + m := ⟨n - xs.length, by omega⟩
  rw [List.take_append m]
  have hm : xs.length + m - xs.length = m := by omega
  rw [hm]

theorem drop_append_ge {α : Type} (xs ys : List α) (n : Nat) (h : xs.length ≤ n) :
    (xs ++ ys).drop n = ys.drop (n - xs.length) := by
  obtain ⟨m, rfl⟩ : ∃ m, n = xs.length + m := ⟨n - xs.length, by omega⟩
  rw [List.drop_append m]
  have hm : xs.length + m - xs.length = m := by omega
  rw [hm]

theorem take_length_takeWhile {α : Type} (p : α → Bool) (l : List α) :
    l.take (l.takeWhile p).length = l.takeWhile p := by
  induction l with
  | nil => rfl
  | cons a t ih =>
    by_cases h : p a
    · simp [List.takeWhile_cons, h, ih]
    · simp [List.takeWhile_cons, h]

theorem all_takeWhile {α : Type} (p : α → Bool) (l : List α) :
    (l.takeWhile p).all p = true := by
  induction l with
  | nil => rfl
  | cons a t ih =>
    by_cases h : p a
    · simp [List.takeWhile_cons, h, ih]
    · simp [List.takeWhile_cons, h]

theorem all_take_of_forall {α : Type} {p : α → Bool} {l : List α}
    (h : ∀ c ∈ l, p c = true) (j : Nat) : (l.take j).all p = true := by
  rw [List.all_eq_true]
  intro c hc
  exact h c (List.mem_of_mem_take hc)

theorem all_eq_false_of_mem {α : Type} {p : α → Bool} {l : List α} {c : α}
    (hc : c ∈ l) (hp : ¬ p c = true) : l.all p = false := by
  cases hall : l.all p with
  | false => rfl
  | true => exact absurd ((List.all_eq_true.1 hall) c hc) hp

theorem dropWhile_head_false {α : Type} {p : α → Bool} :
    ∀ {l l2 : List α} {c : α}, l.dropWhile p = c :: l2 → p c = false := by
  intro l
  induction l with
  | nil => intro l2 c h; exact absurd h (by simp [List.dropWhile])
  | cons a t ih =>
    intro l2 c h
    rw [List.dropWhile_cons] at h
    by_cases ha : p a
    · exact ih (by simpa [ha] using h)
    · simp [ha] at h
      rw [← h.1]
      exact Bool.not_eq_true _ ▸ (by simpa using ha)

/-! ### Character-class facts -/

theorem char_eq_of_toNat {a b : Char} (h : a.toNat = b.toNat) : a = b := by
  have hv : a.val = b.val := UInt32.toNat.inj h
  exact Char.eq_of_val_eq hv

theorem digit_isDot {c : Char} (h : isDigitC c = true) : isDot c = true := by
  simp only [isDigitC, Bool.and_eq_true, decide_eq_true_eq] at h
  simp only [isDot, bne_iff_ne, ne_eq]
  omega

theorem digit_not_dept {c : Char} (h : isDigitC c = true) : ¬ isDeptChar c = true := by
  intro h2
  simp only [isDigitC, Bool.and_eq_true, decide_eq_true_eq] at h
  simp only [isDeptChar, Bool.or_eq_true, Bool.and_eq_true, decide_eq_true_eq,
    Nat.beq_eq_true_eq] at h2
  omega

theorem digit_not_space {c : Char} (h : isDigitC c = true) : ¬ c = ' ' := by
  intro h2
  subst h2
  exact absurd h (by decide)

theorem digit_ne_chars {c : Char} (h : isDigitC c = true) :
    c ≠ '-' ∧ c ≠ '/' ∧ c ≠ '(' ∧ c ≠ ')' := by
  refine ⟨?_, ?_, ?_, ?_⟩ <;> (intro h2; subst h2; exact absurd h (by decide))

theorem area_facts {c : Char} (h : isAreaChar c = true) :
    isDot c = true ∧ c ≠ '(' ∧ c ≠ ')' := by
  simp only [isAreaChar, Bool.or_eq_true, Bool.and_eq_true, decide_eq_true_eq,
    Nat.beq_eq_true_eq] at h
  refine ⟨?_, ?_, ?_⟩
  · simp only [isDot, bne_iff_ne, ne_eq]
    omega
  · intro h2; subst h2; revert h; decide
  · intro h2; subst h2; revert h; decide

theorem dept_isDot {c : Char} (h : isDeptChar c = true) : isDot c = true := by
  simp only [isDeptChar, Bool.or_eq_true, Bool.and_eq_true, decide_eq_true_eq,
    Nat.beq_eq_true_eq] at h
  simp only [isDot, bne_iff_ne, ne_eq]
  omega

theorem dept_ne_parens {c : Char} (h : isDeptChar c = true) : c ≠ '(' ∧ c ≠ ')' := by
  constructor <;> (intro h2; subst h2; exact absurd h (by decide))

/-! ### String comparison -/

theorem lexCmp_eq_iff : ∀ (a b : Str), lexCmp a b = Ordering.eq ↔ a = b := by
  intro a
  induction a with
  | nil => intro b; cases b <;> simp [lexCmp]
  | cons x xs ih =>
    intro b
    cases b with
    | nil => simp [lexCmp]
    | cons y ys =>
      simp only [lexCmp]
      by_cases h1 : x.toNat < y.toNat
      · simp only [if_pos h1]
        constructor
        · intro h; exact absurd h (by simp)
        · intro h
          injection h with hx _
          subst hx
          omega
      · by_cases h2 : y.toNat < x.toNat
        · simp only [if_neg h1, if_pos h2]
          constructor
          · intro h; exact absurd h (by simp)
          · intro h
            injection h with hx _
            subst hx
            omega
        · have hxy : x = y := char_eq_of_toNat (by omega)
          subst hxy
          simp only [if_neg h1, if_neg h2, ih ys]
          constructor
          · intro h; rw [h]
          · intro h; injection h

theorem lexCmp_swap : ∀ (a b : Str), lexCmp b a = (lexCmp a b).swap := by
  intro a
  induction a with
  | nil => intro b; cases b <;> simp [lexCmp, Ordering.swap]
  | cons x xs ih =>
    intro b
    cases b with
    | nil => simp [lexCmp, Ordering.swap]
    | cons y ys =>
      simp only [lexCmp]
      by_cases h1 : x.toNat < y.toNat
      · rw [if_neg (by omega : ¬ y.toNat < x.toNat), if_pos h1, if_pos h1]
        rfl
      · by_cases h2 : y.toNat < x.toNat
        · rw [if_pos h2, if_neg h1, if_pos h2]
          rfl
        · rw [if_neg h2, if_neg h1, if_neg h1, if_neg h2]
          exact ih ys

theorem lexCmp_cons_lt (x y : Char) (xs ys : Str) :
    lexCmp (x :: xs) (y :: ys) = Ordering.lt ↔
      x.toNat < y.toNat ∨ (x = y ∧ lexCmp xs ys = Ordering.lt) := by
  simp only [lexCmp]
  by_cases h1 : x.toNat < y.toNat
  · simp [h1]
  · by_cases h2 : y.toNat < x.toNat
    · rw [if_neg h1, if_pos h2]
      constructor
      · intro h; exact absurd h (by simp)
      · rintro (h | ⟨rfl, _⟩) <;> omega
    · have hxy : x = y := char_eq_of_toNat (by omega)
      subst hxy
      rw [if_neg h1, if_neg h2]
      constructor
      · intro h; exact Or.inr ⟨rfl, h⟩
      · rintro (h | ⟨_, h⟩)
        · omega
        · exact h

theorem lexCmp_lt_trans : ∀ (a b c : Str), lexCmp a b = Ordering.lt →
    lexCmp b c = Ordering.lt → lexCmp a c = Ordering.lt := by
  intro a
  induction a with
  | nil =>
    intro b c hab hbc
    cases b with
    | nil => exact hbc
    | cons y ys =>
      cases c with
      | nil => exact absurd hbc (by simp [lexCmp])
      | cons z zs => simp [lexCmp]
  | cons x xs ih =>
    intro b c hab hbc
    cases b with
    | nil => exact absurd hab (by simp [lexCmp])
    | cons y ys =>
      cases c with
      | nil => exact absurd hbc (by simp [lexCmp])
      | cons z zs =>
        rw [lexCmp_cons_lt] at hab hbc ⊢
        rcases hab with h1 | ⟨rfl, h1⟩
        · rcases hbc with h2 | ⟨rfl, h2⟩
          · exact Or.inl (by omega)
          · exact Or.inl h1
        · rcases hbc with h2 | ⟨rfl, h2⟩
          · exact Or.inl h2
          · exact Or.inr ⟨rfl, ih ys zs h1 h2⟩

theorem strLe_total : ∀ a b : Str, strLe a b ∨ strLe b a := by
  intro a b
  by_cases h : lexCmp a b = Ordering.gt
  · right
    unfold strLe
    rw [lexCmp_swap a b, h]
    decide
  · left; exact h

theorem strLe_trans : ∀ a b c : Str, strLe a b → strLe b c → strLe a c := by
  intro a b c hab hbc
  unfold strLe at hab hbc ⊢
  cases h1 : lexCmp a b with
  | gt => exact absurd h1 hab
  | eq => rw [(lexCmp_eq_iff a b).1 h1]; exact hbc
  | lt =>
    cases h2 : lexCmp b c with
    | gt => exact absurd h2 hbc
    | eq => rw [← (lexCmp_eq_iff b c).1 h2]; rw [h1]; simp
    | lt => rw [lexCmp_lt_trans a b c h1 h2]; simp

/-! ### Identity-key comparison -/

theorem lexCmp_refl (a : Str) : lexCmp a a = Ordering.eq := (lexCmp_eq_iff a a).2 rfl

theorem keyCmp_ne_gt_iff (k1 k2 : Str × Str × Str) :
    keyCmp k1 k2 ≠ Ordering.gt ↔
      lexCmp k1.1 k2.1 = Ordering.lt ∨
      (k1.1 = k2.1 ∧ lexCmp k1.2.1 k2.2.1 = Ordering.lt) ∨
      (k1.1 = k2.1 ∧ k1.2.1 = k2.2.1 ∧ lexCmp k1.2.2 k2.2.2 ≠ Ordering.gt) := by
  obtain ⟨a1, b1, c1⟩ := k1
  obtain ⟨a2, b2, c2⟩ := k2
  simp only [keyCmp]
  cases hc : lexCmp a1 a2 with
  | lt => simp
  | gt =>
    have hne : ¬ a1 = a2 := by
      intro h; subst h; rw [lexCmp_refl] at hc; exact absurd hc (by simp)
    simp [hne]
  | eq =>
    have ha : a1 = a2 := (lexCmp_eq_iff a1 a2).1 hc
    subst ha
    cases hc2 : lexCmp b1 b2 with
    | lt => simp
    | gt =>
      have hne : ¬ b1 = b2 := by
        intro h; subst h; rw [lexCmp_refl] at hc2; exact absurd hc2 (by simp)
      simp [hne]
    | eq =>
      have hb : b1 = b2 := (lexCmp_eq_iff b1 b2).1 hc2
      subst hb
      simp

theorem keyCmp_eq_iff (k1 k2 : Str × Str × Str) :
    keyCmp k1 k2 = Ordering.eq ↔ k1 = k2 := by
  obtain ⟨a1, b1, c1⟩ := k1
  obtain ⟨a2, b2, c2⟩ := k2
  simp only [keyCmp, Prod.mk.injEq]
  cases hc : lexCmp a1 a2 with
  | lt =>
    have hne : ¬ a1 = a2 := by
      intro h; subst h; rw [lexCmp_refl] at hc; exact absurd hc (by simp)
    simp [hne]
  | gt =>
    have hne : ¬ a1 = a2 := by
      intro h; subst h; rw [lexCmp_refl] at hc; exact absurd hc (by simp)
    simp [hne]
  | eq =>
    have ha : a1 = a2 := (lexCmp_eq_iff a1 a2).1 hc
    subst ha
    cases hc2 : lexCmp b1 b2 with
    | lt =>
      have hne : ¬ b1 = b2 := by
        intro h; subst h; rw [lexCmp_refl] at hc2; exact absurd hc2 (by simp)
      simp [hne]
    | gt =>
      have hne : ¬ b1 = b2 := by
        intro h; subst h; rw [lexCmp_refl] at hc2; exact absurd hc2 (by simp)
      simp [hne]
    | eq =>
      have hb : b1 = b2 := (lexCmp_eq_iff b1 b2).1 hc2
      subst hb
      simp [lexCmp_eq_iff c1 c2]

theorem keyCmp_swap (k1 k2 : Str × Str × Str) :
    keyCmp k2 k1 = (keyCmp k1 k2).swap := by
  obtain ⟨a1, b1, c1⟩ := k1
  obtain ⟨a2, b2, c2⟩ := k2
  simp only [keyCmp]
  rw [lexCmp_swap a1 a2, lexCmp_swap b1 b2, lexCmp_swap c1 c2]
  cases lexCmp a1 a2 <;> cases lexCmp b1 b2 <;> cases lexCmp c1 c2 <;> rfl

theorem lexCmp_lt_of_lt_of_eq {a b c : Str} (h1 : lexCmp a b = Ordering.lt) (h2 : b = c) :
    lexCmp a c = Ordering.lt := h2 ▸ h1

theorem keyCmp_le_trans {k1 k2 k3 : Str × Str × Str}
    (h12 : keyCmp k1 k2 ≠ Ordering.gt) (h23 : keyCmp k2 k3 ≠ Ordering.gt) :
    keyCmp k1 k3 ≠ Ordering.gt := by
  rw [keyCmp_ne_gt_iff] at h12 h23 ⊢
  rcases h12 with h12 | ⟨e12, h12⟩ | ⟨e12, f12, h12⟩ <;>
    rcases h23 with h23 | ⟨e23, h23⟩ | ⟨e23, f23, h23⟩
  · exact Or.inl (lexCmp_lt_trans _ _ _ h12 h23)
  · exact Or.inl (by rw [← e23]; exact h12)
  · exact Or.inl (by rw [← e23]; exact h12)
  · exact Or.inl (by rw [e12]; exact h23)
  · exact Or.inr (Or.inl ⟨e12.trans e23, lexCmp_lt_trans _ _ _ h12 h23⟩)
  · exact Or.inr (Or.inl ⟨e12.trans e23, by rw [← f23]; exact h12⟩)
  · exact Or.inl (by rw [e12]; exact h23)
  · exact Or.inr (Or.inl ⟨e12.trans e23, by rw [f12]; exact h23⟩)
  · exact Or.inr (Or.inr ⟨e12.trans e23, f12.trans f23, strLe_trans _ _ _ h12 h23⟩)

theorem courseLe_total : ∀ c d : Course, courseLe c d ∨ courseLe d c := by
  intro c d
  by_cases h : keyCmp (course_key c) (course_key d) = Ordering.gt
  · right
    unfold courseLe
    rw [keyCmp_swap, h]
    decide
  · left; exact h

theorem courseLe_trans : ∀ c d e : Course, courseLe c d → courseLe d e → courseLe c e :=
  fun _ _ _ h1 h2 => keyCmp_le_trans h1 h2

theorem courseLe_antisymm_key {c d : Course} (h1 : courseLe c d) (h2 : courseLe d c) :
    course_key c = course_key d := by
  unfold courseLe at h1 h2
  rw [keyCmp_swap] at h2
  cases h : keyCmp (course_key c) (course_key d) with
  | gt => exact absurd h h1
  | lt => rw [h] at h2; exact absurd rfl h2
  | eq => exact (keyCmp_eq_iff _ _).1 h

/-- Two sorted lists that are permutations of each other and on whose
members the order is antisymmetric are equal. -/
theorem eq_of_perm_sorted_antisymmOn {α : Type} {r : α → α → Prop} :
    ∀ {l1 l2 : List α}, List.Perm l1 l2 → List.Sorted r l1 → List.Sorted r l2 →
      (∀ a ∈ l1, ∀ b ∈ l1, r a b → r b a → a = b) → l1 = l2 := by
  intro l1
  induction l1 with
  | nil => intro l2 hp _ _ _; exact hp.nil_eq
  | cons a t1 ih =>
    intro l2 hp hs1 hs2 hanti
    cases l2 with
    | nil => exact absurd hp.symm.nil_eq (by simp)
    | cons b t2 =>
      have hab : a = b := by
        have ha2 : a ∈ b :: t2 := hp.mem_iff.1 (by simp)
        have hb1 : b ∈ a :: t1 := hp.symm.mem_iff.1 (by simp)
        rcases List.mem_cons.1 ha2 with h | ha2t
        · exact h
        · rcases List.mem_cons.1 hb1 with h | hb1t
          · exact h.symm
          · have hrab : r a b := List.rel_of_sorted_cons hs1 b hb1t
            have hrba : r b a := List.rel_of_sorted_cons hs2 a ha2t
            exact hanti a (by simp) b (List.mem_cons_of_mem a hb1t) hrab hrba
      subst hab
      have hpt : List.Perm t1 t2 := hp.cons_inv
      have : t1 = t2 :=
        ih hpt hs1.of_cons hs2.of_cons
          (fun x hx y hy hxy hyx =>
            hanti x (List.mem_cons_of_mem a hx) y (List.mem_cons_of_mem a hy) hxy hyx)
      rw [this]

/-! ### Python split lemmas -/

theorem splitOnceAt_post_length {pat : Str} (hpat : pat ≠ []) :
    ∀ {s pre post : Str}, splitOnceAt pat s = some (pre, post) → post.length < s.length := by
  intro s
  induction s with
  | nil =>
    intro pre post h
    obtain ⟨p, pt, rfl⟩ : ∃ p pt, pat = p :: pt := by
      cases pat with
      | nil => exact absurd rfl hpat
      | cons p pt => exact ⟨p, pt, rfl⟩
    simp [splitOnceAt, List.isPrefixOf] at h
  | cons c rest ih =>
    intro pre post h
    rw [splitOnceAt] at h
    by_cases hp : pat.isPrefixOf (c :: rest) = true
    · rw [if_pos hp] at h
      injection h with h
      injection h with h1 h2
      subst h2
      have hlen : 1 ≤ pat.length := by
        cases pat with
        | nil => exact absurd rfl hpat
        | cons p pt => simp
      simp only [List.length_drop, List.length_cons]
      omega
    · rw [if_neg hp] at h
      cases hsub : splitOnceAt pat rest with
      | none => rw [hsub] at h; exact absurd h (by simp)
      | some q =>
        obtain ⟨qpre, qpost⟩ := q
        rw [hsub] at h
        injection h with h
        injection h with h1 h2
        subst h2
        have := ih hsub
        simp only [List.length_cons]
        omega

theorem pysplitF_fuel_irrel {pat : Str} (hpat : pat ≠ []) :
    ∀ (f1 : Nat) {f2 : Nat} {s : Str}, s.length < f1 → s.length < f2 →
      pysplitF pat f1 s = pysplitF pat f2 s := by
  intro f1
  induction f1 with
  | zero => intro f2 s h1 _; omega
  | succ f1 ih =>
    intro f2 s h1 h2
    cases f2 with
    | zero => omega
    | succ f2 =>
      simp only [pysplitF]
      cases hsub : splitOnceAt pat s with
      | none => rfl
      | some q =>
        obtain ⟨pre, post⟩ := q
        have hlt := splitOnceAt_post_length hpat hsub
        show pre :: pysplitF pat f1 post = pre :: pysplitF pat f2 post
        exact congrArg (fun l => pre :: l)
          (ih (show post.length < f1 by omega) (show post.length < f2 by omega))

theorem pysplit_unfold {pat : Str} (hpat : pat ≠ []) (s : Str) :
    pysplit pat s =
      match splitOnceAt pat s with
      | none => [s]
      | some q => q.1 :: pysplit pat q.2 := by
  unfold pysplit
  simp only [pysplitF]
  cases hsub : splitOnceAt pat s with
  | none => rfl
  | some q =>
    obtain ⟨pre, post⟩ := q
    have hlt := splitOnceAt_post_length hpat hsub
    show pre :: pysplitF pat s.length post = pre :: pysplitF pat (post.length + 1) post
    exact congrArg (fun l => pre :: l)
      (pysplitF_fuel_irrel hpat s.length (by omega) (by omega))

theorem pysplit_ne_nil (pat s : Str) : pysplit pat s ≠ [] := by
  unfold pysplit
  simp only [pysplitF]
  cases splitOnceAt pat s with
  | none => simp
  | some q => simp

theorem pysplit_head (pat : Str) (hpat : pat ≠ []) (s : Str) :
    (pysplit pat s).headD [] = truncAt pat s := by
  rw [pysplit_unfold hpat]
  unfold truncAt
  cases splitOnceAt pat s with
  | none => rfl
  | some q => rfl

theorem pysplit_second (pat : Str) (hpat : pat ≠ []) (s : Str) :
    (pysplit pat s).get? 1 = segmentAfterFirst pat s := by
  rw [pysplit_unfold hpat]
  unfold segmentAfterFirst
  cases splitOnceAt pat s with
  | none => rfl
  | some q =>
    show (pysplit pat q.2).get? 0 = some (truncAt pat q.2)
    rw [pysplit_unfold hpat]
    unfold truncAt
    cases splitOnceAt pat q.2 with
    | none => rfl
    | some q2 => rfl

theorem hasSubstr_iff_segment {pat s : Str} :
    hasSubstr pat s = false ↔ segmentAfterFirst pat s = none := by
  unfold hasSubstr segmentAfterFirst
  cases splitOnceAt pat s with
  | none => simp
  | some q => simp

/-! ### Characterizations of the clause extractors -/

theorem offeredOf_eq_tableLookup (p1 : Str) : offeredOf p1 = tableLookup p1 := by
  unfold offeredOf tableLookup offered_table
  cases hc1 : hasSubstr "AWSpS.".toList p1
  · cases hc2 : hasSubstr "AWSp.".toList p1
    · cases hc3 : hasSubstr "AWS.".toList p1
      · cases hc4 : hasSubstr "AW.".toList p1
        · cases hc5 : hasSubstr "ASpS.".toList p1
          · cases hc6 : hasSubstr "ASp.".toList p1
            · cases hc7 : hasSubstr "AS.".toList p1
              · cases hc8 : hasSubstr "A.".toList p1
                · cases hc9 : hasSubstr "WSpS.".toList p1
                  · cases hc10 : hasSubstr "WSp.".toList p1
                    · cases hc11 : hasSubstr "WS.".toList p1
                      · cases hc12 : hasSubstr "W.".toList p1
                        · cases hc13 : hasSubstr "SpS.".toList p1
                          · cases hc14 : hasSubstr "Sp.".toList p1
                            · cases hc15 : hasSubstr "S.".toList p1
                              · simp only [List.find?, hc1, hc2, hc3, hc4, hc5, hc6, hc7, hc8, hc9, hc10, hc11, hc12, hc13, hc14, hc15]; rfl
                              · simp only [List.find?, hc1, hc2, hc3, hc4, hc5, hc6, hc7, hc8, hc9, hc10, hc11, hc12, hc13, hc14, hc15]; rfl
                            · simp only [List.find?, hc1, hc2, hc3, hc4, hc5, hc6, hc7, hc8, hc9, hc10, hc11, hc12, hc13, hc14]; rfl
                          · simp only [List.find?, hc1, hc2, hc3, hc4, hc5, hc6, hc7, hc8, hc9, hc10, hc11, hc12, hc13]; rfl
                        · simp only [List.find?, hc1, hc2, hc3, hc4, hc5, hc6, hc7, hc8, hc9, hc10, hc11, hc12]; rfl
                      · simp only [List.find?, hc1, hc2, hc3, hc4, hc5, hc6, hc7, hc8, hc9, hc10, hc11]; rfl
                    · simp only [List.find?, hc1, hc2, hc3, hc4, hc5, hc6, hc7, hc8, hc9, hc10]; rfl
                  · simp only [List.find?, hc1, hc2, hc3, hc4, hc5, hc6, hc7, hc8, hc9]; rfl
                · simp only [List.find?, hc1, hc2, hc3, hc4, hc5, hc6, hc7, hc8]; rfl
              · simp only [List.find?, hc1, hc2, hc3, hc4, hc5, hc6, hc7]; rfl
            · simp only [List.find?, hc1, hc2, hc3, hc4, hc5, hc6]; rfl
          · simp only [List.find?, hc1, hc2, hc3, hc4, hc5]; rfl
        · simp only [List.find?, hc1, hc2, hc3, hc4]; rfl
      · simp only [List.find?, hc1, hc2, hc3]; rfl
    · simp only [List.find?, hc1, hc2]; rfl
  · simp only [List.find?, hc1]; rfl

theorem parse_offered_char (s : Str) : parse_offered s = offered_rule s := by
  unfold parse_offered offered_rule
  by_cases hm : hasSubstr omark s = true
  · rw [if_pos hm, if_pos hm]
    have h2 := pysplit_second omarkSp (by decide) s
    cases hsp : pysplit omarkSp s with
    | nil => exact absurd hsp (pysplit_ne_nil omarkSp s)
    | cons a l =>
      rw [hsp] at h2
      cases l with
      | nil =>
        simp only [List.get?] at h2
        rw [← h2]
      | cons p1 l2 =>
        simp only [List.get?] at h2
        rw [← h2]
        show some (offeredOf p1) = some (tableLookup p1)
        rw [offeredOf_eq_tableLookup]
  · rw [if_neg hm, if_neg hm]

theorem parse_prerequisites_char (s : Str) :
    parse_prerequisites s = prereq_rule s := by
  unfold parse_prerequisites prereq_rule
  by_cases hm : hasSubstr pmark s = true
  · rw [if_pos hm, if_pos hm]
    have hhead := pysplit_head omark (by decide) s
    rw [hhead]
    have h2 := pysplit_second pmark (by decide) (truncAt omark s)
    cases hsp : pysplit pmark (truncAt omark s) with
    | nil => exact absurd hsp (pysplit_ne_nil pmark (truncAt omark s))
    | cons a l =>
      rw [hsp] at h2
      cases l with
      | nil =>
        simp only [List.get?] at h2
        rw [← h2]
      | cons p1 l2 =>
        simp only [List.get?] at h2
        rw [← h2]
  · rw [if_neg hm, if_neg hm]

/-! ### The title-line matcher on a valid title line -/

theorem matchEnd_all_dot {A : Str} (h : ∀ c ∈ A, isDot c = true) : matchEnd A = some A := by
  unfold matchEnd
  rw [List.takeWhile_eq_self_iff.2 h, List.drop_length]

theorem matchClose_no_rparen {r : Str} (h : ')' ∉ r) : matchClose r = none := by
  unfold matchClose
  apply tryDesc0_eq_none
  intro j _
  unfold matchCloseF
  by_cases hall : (r.take j).all isDot = true
  · rw [if_pos hall]
    cases hdrop : r.drop j with
    | nil => rfl
    | cons c v =>
      have hcd : c ∈ r.drop j := by rw [hdrop]; exact List.mem_cons_self c v
      have hc : c ∈ r := List.mem_of_mem_drop hcd
      have hne : ¬ c = ')' := fun e => h (e ▸ hc)
      simp only [if_neg hne]
  · rw [if_neg hall]

theorem matchClose_cons {A : Str} (h1 : ')' ∉ A) (h2 : ∀ c ∈ A, isDot c = true) :
    matchClose (')' :: A) = some A := by
  unfold matchClose
  refine tryDesc0_eq_some (k := 0) (Nat.zero_le _) ?_ ?_
  · show matchCloseF (')' :: A) 0 = some A
    unfold matchCloseF
    simp only [List.take_zero, List.all_nil, if_true, List.drop_zero, if_pos rfl]
    exact matchEnd_all_dot h2
  · intro j hj0 _
    unfold matchCloseF
    have hall : ((')' :: A).take j).all isDot = true :=
      all_take_of_forall (fun c hc => by
        rcases List.mem_cons.1 hc with rfl | hcA
        · rfl
        · exact h2 c hcA) j
    rw [if_pos hall]
    have hdropj : (')' :: A).drop j = A.drop (j - 1) := by
      obtain ⟨m, rfl⟩ : ∃ m, j = m + 1 := ⟨j - 1, by omega⟩
      rfl
    rw [hdropj]
    cases hdrop : A.drop (j - 1) with
    | nil => rfl
    | cons c v =>
      have hcd : c ∈ A.drop (j - 1) := by rw [hdrop]; exact List.mem_cons_self c v
      have hc : c ∈ A := List.mem_of_mem_drop hcd
      have hne : ¬ c = ')' := fun e => h1 (e ▸ hc)
      simp only [if_neg hne]

theorem matchCredit_spec {N A : Str} (hN0 : N ≠ []) (hNd : ∀ c ∈ N, isDigitC c = true)
    (hA1 : ')' ∉ A) (hAd : ∀ c ∈ A, isDot c = true) :
    matchCredit (N ++ ')' :: A) = some (N, A) := by
  unfold matchCredit
  refine tryDesc_eq_some (List.length_pos.2 hN0) (by rw [List.length_append]; omega) ?_ ?_
  · unfold matchCreditF
    rw [List.take_left, List.drop_left]
    rw [if_pos (List.all_eq_true.2 (fun c hc => digit_isDot (hNd c hc)))]
    rw [matchClose_cons hA1 hAd]
    rfl
  · intro j hjgt hjle
    unfold matchCreditF
    have hall : ((N ++ ')' :: A).take j).all isDot = true :=
      all_take_of_forall (fun c hc => by
        rcases List.mem_append.1 hc with hcN | hcCons
        · exact digit_isDot (hNd c hcN)
        · rcases List.mem_cons.1 hcCons with rfl | hcA
          · rfl
          · exact hAd c hcA) j
    rw [if_pos hall]
    have hone : ([')'] : Str).length = 1 := rfl
    have hdropj : (N ++ ')' :: A).drop j = A.drop (j - N.length - 1) := by
      have hsplit : N ++ ')' :: A = (N ++ [')']) ++ A := by simp
      rw [hsplit, drop_append_ge _ _ _ (by rw [List.length_append, hone]; omega)]
      have harith : j - (N ++ [')']).length = j - N.length - 1 := by
        rw [List.length_append, hone]
        omega
      rw [harith]
    rw [hdropj]
    rw [matchClose_no_rparen (fun hc => hA1 (List.mem_of_mem_drop hc))]
    rfl

theorem matchTitleTail_spec {T N A : Str} (hT0 : T ≠ []) (hTd : ∀ c ∈ T, isDot c = true)
    (hN0 : N ≠ []) (hNd : ∀ c ∈ N, isDigitC c = true)
    (hA1 : ')' ∉ A) (hA2 : '(' ∉ A) (hAd : ∀ c ∈ A, isDot c = true) :
    matchTitleTail (T ++ ' ' :: '(' :: (N ++ ')' :: A)) = some (T, N, A) := by
  unfold matchTitleTail
  refine tryDesc_eq_some (List.length_pos.2 hT0) (by rw [List.length_append]; omega) ?_ ?_
  · unfold matchTitleTailF
    rw [List.take_left, List.drop_left]
    rw [if_pos (List.all_eq_true.2 hTd)]
    simp only [if_pos (And.intro rfl rfl : ' ' = ' ' ∧ '(' = '(')]
    rw [matchCredit_spec hN0 hNd hA1 hAd]
    rfl
  · intro j hjgt hjle
    unfold matchTitleTailF
    have hlparen_u : '(' ∉ N ++ ')' :: A := by
      intro hmem
      rcases List.mem_append.1 hmem with hN | hCons
      · exact absurd (hNd _ hN) (by decide)
      · rcases List.mem_cons.1 hCons with he | hA
        · exact absurd he (by decide)
        · exact hA2 hA
    have hall : ((T ++ ' ' :: '(' :: (N ++ ')' :: A)).take j).all isDot = true :=
      all_take_of_forall (fun c hc => by
        rcases List.mem_append.1 hc with hT | hCons
        · exact hTd c hT
        · rcases List.mem_cons.1 hCons with rfl | hCons2
          · rfl
          · rcases List.mem_cons.1 hCons2 with rfl | hu2
            · rfl
            · rcases List.mem_append.1 hu2 with hN | hCons3
              · exact digit_isDot (hNd c hN)
              · rcases List.mem_cons.1 hCons3 with rfl | hA
                · rfl
                · exact hAd c hA) j
    rw [if_pos hall]
    have hdropj : (T ++ ' ' :: '(' :: (N ++ ')' :: A)).drop j
        = (' ' :: '(' :: (N ++ ')' :: A)).drop (j - T.length) :=
      drop_append_ge _ _ _ (by omega)
    rw [hdropj]
    rcases Nat.lt_or_ge (j - T.length) 2 with hm | hm
    · have hm1 : j - T.length = 1 := by omega
      rw [hm1]
      cases hN2 : N ++ ')' :: A with
      | nil => rfl
      | cons c2 u2 =>
        have hne : ¬ ('(' = ' ' ∧ c2 = '(') := by
          rintro ⟨h, _⟩; exact absurd h (by decide)
        simp only [List.drop, hN2, if_neg hne]
    · have hdrop2 : (' ' :: '(' :: (N ++ ')' :: A)).drop (j - T.length)
          = (N ++ ')' :: A).drop (j - T.length - 2) := by
        obtain ⟨m, hm2⟩ : ∃ m, j - T.length = m + 2 := ⟨j - T.length - 2, by omega⟩
        rw [hm2]
        rfl
      rw [hdrop2]
      cases hdrop3 : (N ++ ')' :: A).drop (j - T.length - 2) with
      | nil => rfl
      | cons c1 rest =>
        cases rest with
        | nil => rfl
        | cons c2 v =>
          have hc2 : c2 ∈ N ++ ')' :: A := by
            apply List.mem_of_mem_drop (n := j - T.length - 2)
            rw [hdrop3]
            exact List.mem_cons_of_mem c1 (List.mem_cons_self c2 v)
          have hne : ¬ (c1 = ' ' ∧ c2 = '(') := by
            rintro ⟨_, h⟩; exact hlparen_u (h ▸ hc2)
          simp only [if_neg hne]

theorem matchCode_spec {C T N A : Str} (hC0 : C ≠ []) (hCd : ∀ c ∈ C, isDigitC c = true)
    (hT0 : T ≠ []) (hTd : ∀ c ∈ T, isDot c = true)
    (hN0 : N ≠ []) (hNd : ∀ c ∈ N, isDigitC c = true)
    (hA1 : ')' ∉ A) (hA2 : '(' ∉ A) (hAd : ∀ c ∈ A, isDot c = true) :
    matchCode (C ++ ' ' :: (T ++ ' ' :: '(' :: (N ++ ')' :: A)))
      = some (C, T, N, A) := by
  unfold matchCode
  refine tryDesc_eq_some (List.length_pos.2 hC0) (by rw [List.length_append]; omega) ?_ ?_
  · unfold matchCodeF
    rw [List.take_left, List.drop_left]
    rw [if_pos (List.all_eq_true.2 hCd)]
    simp only [if_pos (rfl : ' ' = ' ')]
    rw [matchTitleTail_spec hT0 hTd hN0 hNd hA1 hA2 hAd]
    rfl
  · intro j hjgt hjle
    unfold matchCodeF
    have htake : (C ++ ' ' :: (T ++ ' ' :: '(' :: (N ++ ')' :: A))).take j
        = C ++ (' ' :: (T ++ ' ' :: '(' :: (N ++ ')' :: A))).take (j - C.length) :=
      take_append_ge _ _ _ (by omega)
    have hmem : ' ' ∈ (C ++ ' ' :: (T ++ ' ' :: '(' :: (N ++ ')' :: A))).take j := by
      rw [htake]
      apply List.mem_append_right
      obtain ⟨m, hm⟩ : ∃ m, j - C.length = m + 1 := ⟨j - C.length - 1, by omega⟩
      rw [hm]
      exact List.mem_cons_self _ _
    have hfalse := all_eq_false_of_mem hmem (show ¬ isDigitC ' ' = true by decide)
    rw [if_neg (fun hcond => by rw [hfalse] at hcond; exact absurd hcond (by decide))]

theorem matchTitle_spec {D C T N A : Str}
    (hD0 : D ≠ []) (hDd : ∀ c ∈ D, isDeptChar c = true)
    (hC0 : C ≠ []) (hCd : ∀ c ∈ C, isDigitC c = true)
    (hT0 : T ≠ []) (hTd : ∀ c ∈ T, isDot c = true)
    (hN0 : N ≠ []) (hNd : ∀ c ∈ N, isDigitC c = true)
    (hA1 : ')' ∉ A) (hA2 : '(' ∉ A) (hAd : ∀ c ∈ A, isDot c = true) :
    matchTitle (D ++ ' ' :: (C ++ ' ' :: (T ++ ' ' :: '(' :: (N ++ ')' :: A))))
      = some (D, C, T, N, A) := by
  unfold matchTitle
  refine tryDesc_eq_some (List.length_pos.2 hD0) (by rw [List.length_append]; omega) ?_ ?_
  · unfold matchTitleF
    rw [List.take_left, List.drop_left]
    rw [if_pos (List.all_eq_true.2 hDd)]
    simp only [if_pos (rfl : ' ' = ' ')]
    rw [matchCode_spec hC0 hCd hT0 hTd hN0 hNd hA1 hA2 hAd]
    rfl
  · intro j hjgt hjle
    unfold matchTitleF
    obtain ⟨c0, C2, rfl⟩ : ∃ c0 C2, C = c0 :: C2 := by
      cases C with
      | nil => exact absurd rfl hC0
      | cons c0 C2 => exact ⟨c0, C2, rfl⟩
    have hc0d : isDigitC c0 = true := hCd c0 (List.mem_cons_self c0 C2)
    by_cases hj1 : j = D.length + 1
    · subst hj1
      have htake : (D ++ ' ' :: ((c0 :: C2) ++ ' ' :: (T ++ ' ' :: '(' :: (N ++ ')' :: A)))).take
            (D.length + 1) = D ++ [' '] := by
        rw [take_append_ge _ _ _ (by omega)]
        have harith : D.length + 1 - D.length = 1 := by omega
        rw [harith]
        rfl
      have hdrop : (D ++ ' ' :: ((c0 :: C2) ++ ' ' :: (T ++ ' ' :: '(' :: (N ++ ')' :: A)))).drop
            (D.length + 1) = (c0 :: C2) ++ ' ' :: (T ++ ' ' :: '(' :: (N ++ ')' :: A)) := by
        rw [drop_append_ge _ _ _ (by omega)]
        have harith : D.length + 1 - D.length = 1 := by omega
        rw [harith]
        rfl
      rw [htake, hdrop]
      have hall : (D ++ [' ']).all isDeptChar = true :=
        List.all_eq_true.2 (fun c hc => by
          rcases List.mem_append.1 hc with hD | hsp
          · exact hDd c hD
          · rcases List.mem_singleton.1 hsp with rfl
            decide)
      rw [if_pos hall]
      have hne : ¬ c0 = ' ' := digit_not_space hc0d
      simp only [List.cons_append, if_neg hne]
    · have hj2 : D.length + 2 ≤ j := by omega
      have htake : (D ++ ' ' :: ((c0 :: C2) ++ ' ' :: (T ++ ' ' :: '(' :: (N ++ ')' :: A)))).take j
          = D ++ (' ' :: ((c0 :: C2) ++ ' ' :: (T ++ ' ' :: '(' :: (N ++ ')' :: A)))).take
              (j - D.length) :=
        take_append_ge _ _ _ (by omega)
      have hmem : c0 ∈ (D ++ ' ' :: ((c0 :: C2) ++ ' ' ::
          (T ++ ' ' :: '(' :: (N ++ ')' :: A)))).take j := by
        rw [htake]
        apply List.mem_append_right
        obtain ⟨m, hm⟩ : ∃ m, j - D.length = m + 2 := ⟨j - D.length - 2, by omega⟩
        rw [hm]
        apply List.mem_cons_of_mem
        show c0 ∈ ((c0 :: C2) ++ ' ' :: (T ++ ' ' :: '(' :: (N ++ ')' :: A))).take (m + 1)
        exact List.mem_cons_self _ _
      have hfalse := all_eq_false_of_mem hmem (digit_not_dept hc0d)
      rw [if_neg (fun hcond => by rw [hfalse] at hcond; exact absurd hcond (by decide))]

theorem parse_credits_digits {N : Str} (hN0 : N ≠ []) (hNd : ∀ c ∈ N, isDigitC c = true) :
    parse_credits N = some (digitsToNat N) := by
  unfold parse_credits
  refine tryDesc_eq_some (List.length_pos.2 hN0) (le_refl _) ?_ ?_
  · unfold parse_creditsF
    rw [List.take_length]
    rw [if_pos (List.all_eq_true.2 hNd)]
    have hget : N.get? N.length = none := List.get?_eq_none.2 (le_refl _)
    rw [hget]
  · intro j hjgt hjle
    exact absurd hjle (by omega)

/-! ### Characterization of the credit parser -/

theorem get?_takeWhile_of_lt {p : Char → Bool} {l : Str} {n : Nat}
    (h : n < (l.takeWhile p).length) : l.get? n = (l.takeWhile p).get? n := by
  obtain ⟨t, ht⟩ := List.takeWhile_prefix (p := p) (l := l)
  calc l.get? n = (l.takeWhile p ++ t).get? n := by rw [ht]
    _ = (l.takeWhile p).get? n := List.get?_append h

theorem parse_creditsF_big (s : Str) :
    ∀ j, (s.takeWhile isDigitC).length < j → j ≤ s.length → parse_creditsF s j = none := by
  intro j hjgt hjle
  unfold parse_creditsF
  cases hdw : s.dropWhile isDigitC with
  | nil =>
    exfalso
    have heq : s.takeWhile isDigitC = s := by
      have had := List.takeWhile_append_dropWhile (p := isDigitC) (l := s)
      rw [hdw, List.append_nil] at had
      exact had
    rw [heq] at hjgt
    omega
  | cons c rest =>
    have hcd : isDigitC c = false := dropWhile_head_false hdw
    have hmem : c ∈ s.take j := by
      have hs2 : s = s.takeWhile isDigitC ++ c :: rest := by
        rw [← hdw]
        exact (List.takeWhile_append_dropWhile isDigitC s).symm
      rw [hs2, take_append_ge _ _ _ (by omega)]
      apply List.mem_append_right
      obtain ⟨m, hm⟩ : ∃ m, j - (s.takeWhile isDigitC).length = m + 1 :=
        ⟨j - (s.takeWhile isDigitC).length - 1, by omega⟩
      rw [hm]
      exact List.mem_cons_self _ _
    have hfalse := all_eq_false_of_mem hmem (show ¬ isDigitC c = true by simp [hcd])
    rw [if_neg (fun hcond => by rw [hfalse] at hcond; exact absurd hcond (by decide))]

theorem parse_credits_char (s : Str) : parse_credits s = credits_rule s := by
  have hLle : (s.takeWhile isDigitC).length ≤ s.length :=
    (List.takeWhile_prefix isDigitC).length_le
  have hrun_all : ∀ c ∈ s.takeWhile isDigitC, isDigitC c = true :=
    List.all_eq_true.1 (all_takeWhile isDigitC s)
  have htakeL : s.take (s.takeWhile isDigitC).length = s.takeWhile isDigitC :=
    take_length_takeWhile isDigitC s
  unfold credits_rule
  by_cases hL : (s.takeWhile isDigitC).length = 0
  · rw [if_pos hL]
    unfold parse_credits
    apply tryDesc_eq_none
    intro j hj1 hjle
    exact parse_creditsF_big s j (by omega) hjle
  · rw [if_neg hL]
    cases hget : s.get? (s.takeWhile isDigitC).length with
    | none =>
      unfold parse_credits
      refine tryDesc_eq_some (k := (s.takeWhile isDigitC).length) (by omega) hLle ?_ ?_
      · unfold parse_creditsF
        rw [htakeL, if_pos (List.all_eq_true.2 hrun_all), hget]
      · exact fun j hj1 hj2 => parse_creditsF_big s j hj1 hj2
    | some c =>
      by_cases hc : c = '-' ∨ c = '/'
      · simp only [if_pos hc]
        by_cases h2 : 2 ≤ (s.takeWhile isDigitC).length
        · rw [if_pos h2]
          unfold parse_credits
          refine tryDesc_eq_some (n := s.length) (k := (s.takeWhile isDigitC).length - 1)
            (by omega) (le_trans (Nat.sub_le _ _) hLle) ?_ ?_
          · unfold parse_creditsF
            have htake2 : s.take ((s.takeWhile isDigitC).length - 1)
                = (s.takeWhile isDigitC).take ((s.takeWhile isDigitC).length - 1) := by
              calc s.take ((s.takeWhile isDigitC).length - 1)
                  = (s.take (s.takeWhile isDigitC).length).take
                      ((s.takeWhile isDigitC).length - 1) := by
                    rw [List.take_take, min_eq_left (by omega)]
                _ = (s.takeWhile isDigitC).take ((s.takeWhile isDigitC).length - 1) := by
                    rw [htakeL]
            rw [htake2]
            rw [if_pos (List.all_eq_true.2
              (fun c hc2 => hrun_all c (List.mem_of_mem_take hc2)))]
            have hlt : (s.takeWhile isDigitC).length - 1 < (s.takeWhile isDigitC).length := by
              omega
            have hsget : s.get? ((s.takeWhile isDigitC).length - 1)
                = (s.takeWhile isDigitC).get? ((s.takeWhile isDigitC).length - 1) :=
              get?_takeWhile_of_lt hlt
            have hdig : ∃ d, s.get? ((s.takeWhile isDigitC).length - 1) = some d ∧
                isDigitC d = true := by
              rw [hsget, List.get?_eq_get hlt]
              exact ⟨_, rfl, hrun_all _ (List.get_mem _ _ _)⟩
            obtain ⟨d, hd, hddig⟩ := hdig
            rw [hd]
            obtain ⟨hd1, hd2, _, _⟩ := digit_ne_chars hddig
            have hne : ¬ (d = '-' ∨ d = '/') := by rintro (h | h); exact hd1 h; exact hd2 h
            simp only [if_neg hne]
          · intro j hjgt2 hjle2
            by_cases hjL : j = (s.takeWhile isDigitC).length
            · subst hjL
              unfold parse_creditsF
              rw [htakeL, if_pos (List.all_eq_true.2 hrun_all), hget]
              simp only [if_pos hc]
            · exact parse_creditsF_big s j (by omega) hjle2
        · rw [if_neg h2]
          unfold parse_credits
          apply tryDesc_eq_none
          intro j hj1 hjle2
          by_cases hjL : j = (s.takeWhile isDigitC).length
          · subst hjL
            unfold parse_creditsF
            rw [htakeL, if_pos (List.all_eq_true.2 hrun_all), hget]
            simp only [if_pos hc]
          · exact parse_creditsF_big s j (by omega) hjle2
      · simp only [if_neg hc]
        unfold parse_credits
        refine tryDesc_eq_some (k := (s.takeWhile isDigitC).length) (by omega) hLle ?_ ?_
        · unfold parse_creditsF
          rw [htakeL, if_pos (List.all_eq_true.2 hrun_all), hget]
          simp only [if_neg hc]
        · exact fun j hj1 hj2 => parse_creditsF_big s j hj1 hj2

/-! ### Claims -/

/-- Claim C1: for every valid title line of the form
`"<DEPT> <CODE> <Title> (<N>) <Areas>"` — a non-empty uppercase/ampersand/space
department run `D`, a non-empty digit course code `C`, a non-empty
newline-free free-text title `T`, the parenthesized non-empty digit credit
expression `N` (terminated by its closing parenthesis), and a trailing
knowledge-area expression `A` over the knowledge-area alphabet — the
course-block parser matches the line and recovers department `D`, code `C`
and credits `N` (here together with the full record it constructs). -/
theorem claim_C1_valid_title_line (tc : Str → Str) (campus D C T N A : Str)
    (hD0 : D ≠ []) (hDd : ∀ c ∈ D, isDeptChar c = true)
    (hC0 : C ≠ []) (hCd : ∀ c ∈ C, isDigitC c = true)
    (hT0 : T ≠ []) (hTd : ∀ c ∈ T, isDot c = true)
    (hN0 : N ≠ []) (hNd : ∀ c ∈ N, isDigitC c = true)
    (hA : ∀ c ∈ A, isAreaChar c = true) :
    parse_course tc [D ++ ' ' :: (C ++ ' ' :: (T ++ ' ' :: '(' :: (N ++ ')' :: A)))] campus
      = some (some
          { campus := campus, department := D, code := C, name := tc T,
            credits := some (digitsToNat N),
            knowledge_areas := pysorted ((splitCS A).map pystrip),
            prerequisites := [], offered := [] }) := by
  have hA1 : ')' ∉ A := fun hmem => (area_facts (hA _ hmem)).2.2 rfl
  have hA2 : '(' ∉ A := fun hmem => (area_facts (hA _ hmem)).2.1 rfl
  have hAd : ∀ c ∈ A, isDot c = true := fun c hc => (area_facts (hA c hc)).1
  have hm := matchTitle_spec hD0 hDd hC0 hCd hT0 hTd hN0 hNd hA1 hA2 hAd
  simp only [parse_course]
  rw [hm]
  simp only [List.filter_nil, List.flatten_nil]
  have hp : parse_prerequisites [] = some [] := rfl
  have ho : parse_offered [] = some [] := rfl
  rw [hp, ho]
  simp only []
  rw [parse_credits_digits hN0 hNd]

/-- Witness for claim C1 at the specification's end-to-end example title
line `"CSE 142 Computer Programming I (4) NW"`. -/
theorem claim_C1_valid_title_line_witness :
    parse_course (fun s => s)
        ["CSE".toList ++ ' ' :: ("142".toList ++ ' ' ::
          ("Computer Programming I".toList ++ ' ' :: '(' ::
            ("4".toList ++ ')' :: " NW".toList)))] "Seattle".toList
      = some (some
          { campus := "Seattle".toList, department := "CSE".toList,
            code := "142".toList, name := "Computer Programming I".toList,
            credits := some (digitsToNat "4".toList),
            knowledge_areas := pysorted ((splitCS " NW".toList).map pystrip),
            prerequisites := [], offered := [] }) :=
  claim_C1_valid_title_line (fun s => s) "Seattle".toList "CSE".toList "142".toList
    "Computer Programming I".toList "4".toList " NW".toList
    (by decide) (by decide) (by decide) (by decide) (by decide) (by decide)
    (by decide) (by decide) (by decide)

/-- Claim C2 counterexample: on `"35-5"` the claimed rule (value of the full
leading digit run only when not followed by a hyphen or slash) yields
absent, but `parse_credits` backtracks one digit and returns `3`. -/
theorem claim_C2_counterexample :
    parse_credits "35-5".toList = some 3 ∧
      credits_claim_rule "35-5".toList = none ∧
      parse_credits "35-5".toList ≠ credits_claim_rule "35-5".toList := by decide

/-- Claim C2 amended: `parse_credits` returns the value of the full leading
digit run when the run is not immediately followed by a hyphen or slash;
when it is, the greedy match backtracks, so a run of at least two digits
yields the value of the run without its final digit, and only a single
leading digit followed by a hyphen or slash (or no leading digit) yields
absent.  The stated examples 3, 3., 3-5, 3/4/5 are unaffected. -/
theorem claim_C2_amended (s : Str) : parse_credits s = credits_rule s :=
  parse_credits_char s

/-- Claim C3 counterexample: with two `'Prerequisite:'` markers the code
scans only the piece between the first and the second marker
(Python `split` semantics), not the whole portion following the marker as
claimed: `"MATH 126"` after the second marker is dropped. -/
theorem claim_C3_counterexample :
    parse_prerequisites "Prerequisite: CSE 142. Prerequisite: MATH 126.".toList
        = some ["CSE 142".toList] ∧
      prereq_claim_rule "Prerequisite: CSE 142. Prerequisite: MATH 126.".toList
        = some ["CSE 142".toList, "MATH 126".toList] ∧
      parse_prerequisites "Prerequisite: CSE 142. Prerequisite: MATH 126.".toList
        ≠ prereq_claim_rule "Prerequisite: CSE 142. Prerequisite: MATH 126.".toList := by
  decide

/-- Claim C3 amended: when the text contains no `'Prerequisite:'` marker the
result is the empty list; otherwise the scanned portion is the piece of the
truncated text strictly between the first `'Prerequisite:'` marker and the
next occurrence of it (if any), and when the marker occurs only after
`'Offered:'` the function raises an index error (`none`) instead of
returning a list; the matches are trimmed, deduplicated and sorted as
claimed. -/
theorem claim_C3_amended (s : Str) : parse_prerequisites s = prereq_rule s :=
  parse_prerequisites_char s

/-- Claim C4 counterexample: on `"Offered:A."` the marker `'Offered:'` is
present, so the claim predicts the token list `["A"]`, but the function
splits on `'Offered: '` (with a trailing space), finds no second piece and
raises an `IndexError` (modelled `none`). -/
theorem claim_C4_counterexample :
    parse_offered "Offered:A.".toList = none ∧
      offered_claim_rule "Offered:A.".toList = some ["A".toList] ∧
      parse_offered "Offered:A.".toList ≠ offered_claim_rule "Offered:A.".toList := by
  decide

/-- Claim C4 amended: when the text contains no `'Offered:'` marker the
result is the empty list; when it contains `'Offered: '` (with a trailing
space) the result is the token list of the first entry of the fixed 15-row
precedence table whose literal period-terminated code occurs in the piece
strictly between the first `'Offered: '` and its next occurrence (empty
list when no entry occurs there); when `'Offered:'` occurs but never with a
trailing space, the function raises an index error (`none`). -/
theorem claim_C4_amended (s : Str) : parse_offered s = offered_rule s :=
  parse_offered_char s

theorem pysortedset_sorted (l : List Str) : List.Sorted strLe (pysortedset l) :=
  @List.sorted_insertionSort _ strLe _ ⟨strLe_total⟩ ⟨strLe_trans⟩ l.dedup

theorem pysortedset_nodup (l : List Str) : (pysortedset l).Nodup :=
  ((List.perm_insertionSort strLe l.dedup).symm).nodup (List.nodup_dedup l)

theorem parse_prerequisites_sorted_nodup {s : Str} {l : List Str}
    (h : parse_prerequisites s = some l) : List.Sorted strLe l ∧ l.Nodup := by
  unfold parse_prerequisites at h
  by_cases hm : hasSubstr pmark s = true
  · rw [if_pos hm] at h
    cases hsp : pysplit pmark ((pysplit omark s).headD []) with
    | nil => rw [hsp] at h; exact absurd h (by simp)
    | cons a rest =>
      cases rest with
      | nil => rw [hsp] at h; exact absurd h (by simp)
      | cons p1 rest2 =>
        rw [hsp] at h
        simp only [] at h
        injection h with h
        subst h
        exact ⟨pysortedset_sorted _, pysortedset_nodup _⟩
  · rw [if_neg hm] at h
    injection h with h
    subst h
    exact ⟨List.sorted_nil, List.nodup_nil⟩

/-- Claim C5 counterexample: the knowledge-area input `"VLPA, C , VLPA"`
yields `["C", "VLPA", "VLPA"]` — sorted but with the duplicate retained
(the source sorts the list without building a set), not the claimed
`["C", "VLPA"]`. -/
theorem claim_C5_counterexample :
    parse_course (fun s => s) ["A 1 T (4) VLPA, C , VLPA".toList] "S".toList
        = some (some courseC5dup) ∧
      ¬ courseC5dup.knowledge_areas.Nodup := by decide

/-- Claim C5 amended: in every record the course-block parser constructs,
`knowledge_areas` is sorted ascending at construction time (duplicates and
empty pieces are retained, each piece trimmed after splitting on comma or
slash), and `prerequisites` is sorted ascending and deduplicated; neither
is re-sorted later. -/
theorem claim_C5_amended (tc : Str → Str) (fragments : List Str) (campus : Str)
    (c : Course) (h : parse_course tc fragments campus = some (some c)) :
    List.Sorted strLe c.knowledge_areas ∧
      List.Sorted strLe c.prerequisites ∧ c.prerequisites.Nodup := by
  unfold parse_course at h
  cases fragments with
  | nil => exact absurd h (by simp)
  | cons s remaining =>
    simp only [] at h
    cases hm : matchTitle s with
    | none => rw [hm] at h; exact absurd h (by simp)
    | some g =>
      rw [hm] at h
      simp only [] at h
      cases hp : parse_prerequisites
          (List.flatten (remaining.filter (fun j => hasSubstr pmark j))) with
      | none => rw [hp] at h; exact absurd h (by simp)
      | some pr =>
        rw [hp] at h
        simp only [] at h
        cases ho : parse_offered
            (List.flatten (remaining.filter (fun j => hasSubstr omark j))) with
        | none => rw [ho] at h; exact absurd h (by simp)
        | some off =>
          rw [ho] at h
          simp only [] at h
          injection h with h
          injection h with h
          subst h
          refine ⟨?_, (parse_prerequisites_sorted_nodup hp).1,
            (parse_prerequisites_sorted_nodup hp).2⟩
          exact @List.sorted_insertionSort _ strLe _ ⟨strLe_total⟩ ⟨strLe_trans⟩ _

/-- Witness for claim C5 on a block with a prerequisite clause. -/
theorem claim_C5_amended_witness :
    List.Sorted strLe courseC5.knowledge_areas ∧
      List.Sorted strLe courseC5.prerequisites ∧ courseC5.prerequisites.Nodup :=
  claim_C5_amended (fun s => s) fragsC5 "X".toList courseC5 (by decide)

/-- Claim C6 counterexample: both sub-field parsers can raise.
`parse_offered` raises on text containing `'Offered:'` but not
`'Offered: '`; `parse_prerequisites` raises on text whose only
`'Prerequisite:'` marker lies after the first `'Offered:'` marker. -/
theorem claim_C6_counterexample :
    parse_offered "See Offered:AW.".toList = none ∧
      parse_prerequisites "Offered: W. Prerequisite: CSE 142.".toList = none := by decide

/-- Claim C6 amended: `parse_offered` returns a list except exactly when the
text contains `'Offered:'` but not `'Offered: '` (then it raises an index
error), and `parse_prerequisites` returns a list except exactly when the
text contains `'Prerequisite:'` but its truncation at the first
`'Offered:'` does not (then it raises an index error); in all other cases
ambiguous or unrecognized content yields an absent or empty value, never a
failure. -/
theorem claim_C6_amended (s : Str) :
    (parse_offered s = none ↔
      (hasSubstr omark s = true ∧ hasSubstr omarkSp s = false)) ∧
    (parse_prerequisites s = none ↔
      (hasSubstr pmark s = true ∧ hasSubstr pmark (truncAt omark s) = false)) := by
  constructor
  · rw [parse_offered_char]
    unfold offered_rule
    by_cases hm : hasSubstr omark s = true
    · rw [if_pos hm]
      cases hseg : segmentAfterFirst omarkSp s with
      | none =>
        show (none : Option (List Str)) = none ↔ _
        exact ⟨fun _ => ⟨hm, hasSubstr_iff_segment.2 hseg⟩, fun _ => rfl⟩
      | some seg =>
        show some (tableLookup seg) = none ↔ _
        constructor
        · intro hcontra; exact absurd hcontra (by simp)
        · rintro ⟨_, hfalse⟩
          rw [hasSubstr_iff_segment] at hfalse
          rw [hfalse] at hseg
          exact absurd hseg (by simp)
    · rw [if_neg hm]
      constructor
      · intro hcontra; exact absurd hcontra (by simp)
      · rintro ⟨htrue, _⟩; exact absurd htrue hm
  · rw [parse_prerequisites_char]
    unfold prereq_rule
    by_cases hm : hasSubstr pmark s = true
    · rw [if_pos hm]
      cases hseg : segmentAfterFirst pmark (truncAt omark s) with
      | none =>
        show (none : Option (List Str)) = none ↔ _
        exact ⟨fun _ => ⟨hm, hasSubstr_iff_segment.2 hseg⟩, fun _ => rfl⟩
      | some seg =>
        show some (pysortedset ((findallPrereq seg).map pystrip)) = none ↔ _
        constructor
        · intro hcontra; exact absurd hcontra (by simp)
        · rintro ⟨_, hfalse⟩
          rw [hasSubstr_iff_segment] at hfalse
          rw [hfalse] at hseg
          exact absurd hseg (by simp)
    · rw [if_neg hm]
      constructor
      · intro hcontra; exact absurd hcontra (by simp)
      · rintro ⟨htrue, _⟩; exact absurd htrue hm

/-- Claim C7 (code bug): department link `"b"` parses to one course, yet a
run over departments `"a"` (failing with non-200) and `"b"` aborts — the
bare `return` in `get_courses` yields Python `None`, which
`itertools.chain.from_iterable` cannot iterate, so `extract_courses` raises
instead of letting the failed department contribute zero records. -/
theorem claim_C7_bug :
    get_courses fetchC7 (fun s => s) "Seattle".toList "b".toList
        = some (some [courseC7]) ∧
      extract_courses (fun _ => some []) fetchC7 (fun s => s)
        ["Seattle".toList] ["a".toList, "b".toList] = none := by decide

/-- Claim C8: the exported sequence is exactly the collected records (a
permutation, nothing deduplicated) sorted ascending by the identity key
`course_key` with componentwise string comparison. -/
theorem claim_C8_export_sorted (courses : List Course) :
    List.Perm (export_courses courses) courses ∧
      List.Sorted courseLe (export_courses courses) :=
  ⟨List.perm_insertionSort courseLe courses,
   @List.sorted_insertionSort _ courseLe _ ⟨courseLe_total⟩ ⟨courseLe_trans⟩ courses⟩

/-- Claim C9 counterexample: two distinct records sharing one identity key
keep their arrival order under the stable sort, so the two arrival orders
produce different exported sequences even though the collections are
permutations of each other. -/
theorem claim_C9_counterexample :
    List.Perm [courseC9a, courseC9b] [courseC9b, courseC9a] ∧
      export_courses [courseC9a, courseC9b] = [courseC9a, courseC9b] ∧
      export_courses [courseC9b, courseC9a] = [courseC9b, courseC9a] ∧
      courseC9a ≠ courseC9b := by decide

/-- Claim C9 amended: the exported order is independent of arrival order
provided no two distinct records share an identity key — under that
injectivity the sort result is determined by the set of records alone. -/
theorem claim_C9_amended (l1 l2 : List Course)
    (hperm : List.Perm l1 l2)
    (hinj : ∀ a ∈ l1, ∀ b ∈ l1, course_key a = course_key b → a = b) :
    export_courses l1 = export_courses l2 := by
  apply eq_of_perm_sorted_antisymmOn (r := courseLe)
  · exact (List.perm_insertionSort courseLe l1).trans
      (hperm.trans (List.perm_insertionSort courseLe l2).symm)
  · exact @List.sorted_insertionSort _ courseLe _ ⟨courseLe_total⟩ ⟨courseLe_trans⟩ l1
  · exact @List.sorted_insertionSort _ courseLe _ ⟨courseLe_total⟩ ⟨courseLe_trans⟩ l2
  · intro a ha b hb hab hba
    have ha1 : a ∈ l1 := (List.perm_insertionSort courseLe l1).mem_iff.1 ha
    have hb1 : b ∈ l1 := (List.perm_insertionSort courseLe l1).mem_iff.1 hb
    exact hinj a ha1 b hb1 (courseLe_antisymm_key hab hba)

/-- Witness for claim C9 on two records with distinct identity keys. -/
theorem claim_C9_amended_witness :
    List.Perm [courseC9a, courseC9c] [courseC9c, courseC9a] ∧
      (∀ a ∈ [courseC9a, courseC9c], ∀ b ∈ [courseC9a, courseC9c],
        course_key a = course_key b → a = b) ∧
      export_courses [courseC9a, courseC9c] = export_courses [courseC9c, courseC9a] :=
  ⟨by decide, by decide, claim_C9_amended _ _ (by decide) (by decide)⟩

/-- Claim C10 counterexample: the block with body fragments
`["Prerequisite: either", "MATH 125."]` parses with no prerequisites — the
second fragment is filtered out because it lacks the marker — whereas the
claimed derivation from the concatenation of all remaining fragments finds
`"MATH 125"`. -/
theorem claim_C10_counterexample :
    parse_course (fun s => s) ("A 1 T (4) NW".toList :: fragsC10) "S".toList
        = some (some courseC10) ∧
      parse_prerequisites (List.flatten fragsC10) = some ["MATH 125".toList] ∧
      courseC10.prerequisites ≠ ["MATH 125".toList] := by decide

/-- Claim C10 amended: the parser derives the prerequisites from the
concatenation of only those remaining fragments containing
`'Prerequisite:'`, and the offered terms from the concatenation of only
those containing `'Offered:'` — two different strings, not the single
concatenation of all remaining fragments. -/
theorem claim_C10_amended (tc : Str → Str) (s : Str) (remaining : List Str)
    (campus : Str) (c : Course)
    (h : parse_course tc (s :: remaining) campus = some (some c)) :
    parse_prerequisites (List.flatten (remaining.filter (fun j => hasSubstr pmark j)))
        = some c.prerequisites ∧
      parse_offered (List.flatten (remaining.filter (fun j => hasSubstr omark j)))
        = some c.offered := by
  unfold parse_course at h
  simp only [] at h
  cases hm : matchTitle s with
  | none => rw [hm] at h; exact absurd h (by simp)
  | some g =>
    rw [hm] at h
    simp only [] at h
    cases hp : parse_prerequisites
        (List.flatten (remaining.filter (fun j => hasSubstr pmark j))) with
    | none => rw [hp] at h; exact absurd h (by simp)
    | some pr =>
      rw [hp] at h
      simp only [] at h
      cases ho : parse_offered
          (List.flatten (remaining.filter (fun j => hasSubstr omark j))) with
      | none => rw [ho] at h; exact absurd h (by simp)
      | some off =>
        rw [ho] at h
        simp only [] at h
        injection h with h
        injection h with h
        subst h
        exact ⟨rfl, rfl⟩

/-- Witness for claim C10 on the block of the counterexample. -/
theorem claim_C10_amended_witness :
    parse_prerequisites (List.flatten (fragsC10.filter (fun j => hasSubstr pmark j)))
        = some courseC10.prerequisites ∧
      parse_offered (List.flatten (fragsC10.filter (fun j => hasSubstr omark j)))
        = some courseC10.offered :=
  claim_C10_amended (fun s => s) "A 1 T (4) NW".toList fragsC10 "S".toList courseC10
    (by decide)

end UW
